import Mathlib

/-!
# Verification of the bigint-rs arbitrary-precision integer core

Shallow embedding of `src/bigint/src/bigint.rs`, `src/bigint/src/as_bytes.rs`
and `src/bigint/src/macros.rs`.

Bytes (`u8`) are modelled as `Nat` with explicit `% 256` where the Rust code
uses wrapping/overflowing arithmetic; a `Vec<u8>` is a `List Nat` together with
the validity predicate `validBytes` (every entry `< 256`), which holds of every
byte vector a real `Vec<u8>` can contain.  Fixed-width native values are
modelled by their bit patterns: a supported native type is a pair of its byte
width and its `keep_carry` flag, and a value of the type is the natural number
`< 256 ^ width` whose little-endian base-256 digits are exactly the bytes that
`to_ne_bytes` produces on a little-endian host (for signed integers the two's
complement pattern, for floats the IEEE-754 bit pattern; both `to_ne_bytes`
and `from_ne_bytes` factor bijectively through this pattern).
-/

namespace BigIntRs

/-- Read a byte list as a little-endian base-256 natural number. -/
def bytesToNat : List Nat → Nat
  | [] => 0
  | b :: bs => b + 256 * bytesToNat bs

/-- The little-endian base-256 digits of `v`, padded/truncated to `w` bytes;
this is `v.to_ne_bytes()` on a little-endian host, for `v` a `w`-byte value. -/
def natToBytes : Nat → Nat → List Nat
  | 0, _ => []
  | w + 1, v => v % 256 :: natToBytes w (v / 256)

/-- Every entry of the list fits in a byte: the invariant every `Vec<u8>` has. -/
def validBytes (bs : List Nat) : Prop := ∀ x ∈ bs, x < 256

instance : DecidablePred validBytes := fun bs =>
  List.decidableBAll (fun x => x < 256) bs

/-- `u8::overflowing_add`: the wrapped sum and whether the addition overflowed. -/
def overflowing_add (x y : Nat) : Nat × Bool :=
  ((x + y) % 256, decide (256 ≤ x + y))

/-- The one-sided remainder of the addition loop (bigint.rs lines 131-135):
once `zip_longest` yields only `Left`/`Right` items, each remaining byte just
absorbs the running carry (`single.overflowing_add(carry)`), and the new carry
is `overflow as u8`. -/
def carryTail : List Nat → Nat → List Nat × Nat
  | [], carry => ([], carry)
  | single :: bs, carry =>
      let p := overflowing_add single carry
      let rest := carryTail bs p.2.toNat
      (p.1 :: rest.1, rest.2)

/-- The loop of `<&BigInt as Add<&BigInt>>::add` (bigint.rs lines 119-142):
walk the two byte sequences with `zip_longest`, returning the emitted output
bytes together with the carry left after the last position.  While both
sequences have a byte (`Both`), the two overflow flags are added as numbers
(`overflow_a as u8 + overflow_b as u8`); the remainder, where `zip_longest`
yields only one-sided items, is `carryTail`. -/
def addCore : List Nat → List Nat → Nat → List Nat × Nat
  | [], rs, carry => carryTail rs carry
  | left :: ls, [], carry => carryTail (left :: ls) carry
  | left :: ls, right :: rs, carry =>
      let p1 := overflowing_add left right
      let p2 := overflowing_add p1.1 carry
      let rest := addCore ls rs (p1.2.toNat + p2.2.toNat)
      (p2.1 :: rest.1, rest.2)

/-- The `BigInt` struct: backing byte vector plus the
"discard the final carry" flag. -/
structure BigInt where
  backing : List Nat
  discard_carry : Bool
deriving DecidableEq

/-- `BigInt::with_capacity` (capacity is an allocation hint, not data). -/
def BigInt.with_capacity (_capacity : Nat) : BigInt :=
  ⟨[], false⟩

/-- `BigInt::from_backing`: wrap an existing backing vector verbatim. -/
def BigInt.from_backing (backing : List Nat) : BigInt :=
  ⟨backing, false⟩

/-- A supported native numeric type, as the `AsBytes` trait sees it: its
fixed byte width and the constant its `keep_carry()` returns. -/
structure AsBytesImpl where
  width : Nat
  keep_carry : Bool
deriving DecidableEq

/-- `AsBytes::as_bytes` (`to_ne_bytes().to_vec()`), on the value's pattern. -/
def AsBytesImpl.as_bytes (T : AsBytesImpl) (v : Nat) : List Nat :=
  natToBytes T.width v

/-- `AsBytes::from_bytes`: `try_into` an array of the type's width (`none` on
any other length), then `from_ne_bytes`. -/
def AsBytesImpl.from_bytes (T : AsBytesImpl) (bytes : List Nat) : Option Nat :=
  if bytes.length = T.width then some (bytesToNat bytes) else none

/-! The `impl_asbytes!` invocation: the types listed under `keep_carry:`
expand to `single_impl!(T, false)` and the ones under `discard_carry:` to
`single_impl!(T, true)`, so `keep_carry()` returns `false` for the unsigned
types and `true` for the signed and floating-point types.  `usize`/`isize`
widths are those of a 64-bit host. -/

def u8 : AsBytesImpl := ⟨1, false⟩
def u16 : AsBytesImpl := ⟨2, false⟩
def u32 : AsBytesImpl := ⟨4, false⟩
def u64 : AsBytesImpl := ⟨8, false⟩
def u128 : AsBytesImpl := ⟨16, false⟩
def usize : AsBytesImpl := ⟨8, false⟩
def i8 : AsBytesImpl := ⟨1, true⟩
def i16 : AsBytesImpl := ⟨2, true⟩
def i32 : AsBytesImpl := ⟨4, true⟩
def i64 : AsBytesImpl := ⟨8, true⟩
def i128 : AsBytesImpl := ⟨16, true⟩
def isize : AsBytesImpl := ⟨8, true⟩
def f32 : AsBytesImpl := ⟨4, true⟩
def f64 : AsBytesImpl := ⟨8, true⟩

/-- `BigInt::from_value`: encode the value and adopt `T::keep_carry()` as the
`discard_carry` flag. -/
def BigInt.from_value (T : AsBytesImpl) (v : Nat) : BigInt :=
  ⟨T.as_bytes v, T.keep_carry⟩

/-- `BigInt::to_value`: decode the backing bytes as a `T`. -/
def BigInt.to_value (T : AsBytesImpl) (a : BigInt) : Option Nat :=
  T.from_bytes a.backing

/-- `<&BigInt as Add<&BigInt>>::add`: run the loop from carry `0`, push the
final carry unless it is zero or either operand discards, and wrap the output
with `from_backing`. -/
def BigInt.add (a rhs : BigInt) : BigInt :=
  let res := addCore a.backing rhs.backing 0
  let out :=
    if res.2 == 0 || a.discard_carry || rhs.discard_carry then res.1
    else res.1 ++ [res.2]
  BigInt.from_backing out

/-! The three overloads generated by `trait_impl!(BigInt, Add, add)`: each
forwards to the reference/reference implementation. -/

/-- `impl Add<&BigInt> for BigInt`: `Trait::func(&self, rhs)`. -/
def BigInt.add_owned_ref (a rhs : BigInt) : BigInt := BigInt.add a rhs

/-- `impl Add<BigInt> for &BigInt`: `Trait::func(self, &rhs)`. -/
def BigInt.add_ref_owned (a rhs : BigInt) : BigInt := BigInt.add a rhs

/-- `impl Add<BigInt> for BigInt`: `Trait::func(&self, &rhs)`. -/
def BigInt.add_owned_owned (a rhs : BigInt) : BigInt := BigInt.add a rhs

/-! ## Basic lemmas about byte lists -/

lemma validBytes_nil : validBytes [] := by
  intro x hx
  cases hx

lemma validBytes_cons {b : Nat} {bs : List Nat} :
    validBytes (b :: bs) ↔ b < 256 ∧ validBytes bs := by
  simp [validBytes]

lemma bytesToNat_append_single (xs : List Nat) (c : Nat) :
    bytesToNat (xs ++ [c]) = bytesToNat xs + c * 256 ^ xs.length := by
  induction xs with
  | nil => simp [bytesToNat]
  | cons b bs ih =>
      show b + 256 * bytesToNat (bs ++ [c])
        = b + 256 * bytesToNat bs + c * 256 ^ (bs.length + 1)
      rw [ih, pow_succ]
      ring

lemma natToBytes_length (w v : Nat) : (natToBytes w v).length = w := by
  induction w generalizing v with
  | zero => rfl
  | succ w ih => simp [natToBytes, ih]

lemma natToBytes_valid (w v : Nat) : validBytes (natToBytes w v) := by
  induction w generalizing v with
  | zero => exact validBytes_nil
  | succ w ih =>
      exact validBytes_cons.mpr ⟨Nat.mod_lt _ (by omega), ih _⟩

lemma bytesToNat_natToBytes (w v : Nat) :
    bytesToNat (natToBytes w v) = v % 256 ^ w := by
  induction w generalizing v with
  | zero => simp [natToBytes, bytesToNat, Nat.mod_one]
  | succ w ih =>
      simp only [natToBytes, bytesToNat, ih]
      rw [pow_succ']
      rw [Nat.mod_mul]

lemma bytesToNat_lt {bs : List Nat} (h : validBytes bs) :
    bytesToNat bs < 256 ^ bs.length := by
  induction bs with
  | nil => simp [bytesToNat]
  | cons b bs ih =>
      obtain ⟨hb, hbs⟩ := validBytes_cons.mp h
      have := ih hbs
      simp only [bytesToNat, List.length_cons, pow_succ]
      set M := 256 ^ bs.length
      omega

/-! ## Lemmas about the addition loop -/

/-- One step with a single byte: the wrapped sum plus 256 times the overflow
flag recovers the exact sum. -/
lemma step_eq (x c : Nat) (hx : x < 256) (hc : c < 256) :
    (x + c) % 256 + 256 * (decide (256 ≤ x + c)).toNat = x + c := by
  by_cases h : 256 ≤ x + c <;> simp [h] <;> omega

/-- One `Both` step: the emitted byte plus 256 times the overflow count
recovers the exact sum of the two bytes and the incoming carry. -/
lemma step2_eq (l r c : Nat) (hl : l < 256) (hr : r < 256) (hc : c < 256) :
    ((l + r) % 256 + c) % 256
        + 256 * ((decide (256 ≤ l + r)).toNat + (decide (256 ≤ (l + r) % 256 + c)).toNat)
      = l + r + c := by
  by_cases h1 : 256 ≤ l + r <;> by_cases h2 : 256 ≤ (l + r) % 256 + c <;>
    simp [h1, h2] <;> omega

lemma carryTail_cons (b : Nat) (bs : List Nat) (c : Nat) :
    carryTail (b :: bs) c
      = ((b + c) % 256 :: (carryTail bs (decide (256 ≤ b + c)).toNat).1,
         (carryTail bs (decide (256 ≤ b + c)).toNat).2) := rfl

lemma addCore_cons_cons (l r : Nat) (ls rs : List Nat) (c : Nat) :
    addCore (l :: ls) (r :: rs) c
      = (((l + r) % 256 + c) % 256
           :: (addCore ls rs
                ((decide (256 ≤ l + r)).toNat
                  + (decide (256 ≤ (l + r) % 256 + c)).toNat)).1,
         (addCore ls rs
            ((decide (256 ≤ l + r)).toNat
              + (decide (256 ≤ (l + r) % 256 + c)).toNat)).2) := rfl

lemma carryTail_length (bs : List Nat) :
    ∀ c : Nat, (carryTail bs c).1.length = bs.length := by
  induction bs with
  | nil => intro c; rfl
  | cons b bs ih => intro c; simp [carryTail_cons, ih]

lemma addCore_length (ls : List Nat) :
    ∀ (rs : List Nat) (c : Nat), (addCore ls rs c).1.length = max ls.length rs.length := by
  induction ls with
  | nil =>
      intro rs c
      show (carryTail rs c).1.length = max 0 rs.length
      simp [carryTail_length]
  | cons l ls ih =>
      intro rs c
      cases rs with
      | nil =>
          show (carryTail (l :: ls) c).1.length = max (l :: ls).length 0
          simp [carryTail_length]
      | cons r rs =>
          simp only [addCore_cons_cons, List.length_cons, ih]
          omega

/-- The one-sided tail: output valid, carry stays below 256, and the output
plus the weighted final carry is the exact sum of input value and carry. -/
lemma carryTail_spec (bs : List Nat) :
    ∀ c : Nat, validBytes bs → c < 256 →
      validBytes (carryTail bs c).1 ∧ (carryTail bs c).2 < 256 ∧
      bytesToNat (carryTail bs c).1 + (carryTail bs c).2 * 256 ^ bs.length
        = bytesToNat bs + c := by
  induction bs with
  | nil =>
      intro c _ hc
      exact ⟨validBytes_nil, hc, by simp [carryTail, bytesToNat]⟩
  | cons b bs ih =>
      intro c hl hc
      obtain ⟨hb, hbs⟩ := validBytes_cons.mp hl
      have hcnew : (decide (256 ≤ b + c)).toNat < 256 := by
        by_cases h : 256 ≤ b + c <;> simp [h]
      obtain ⟨hv, hcb, hval⟩ := ih ((decide (256 ≤ b + c)).toNat) hbs hcnew
      have hstep := step_eq b c hb hc
      refine ⟨?_, ?_, ?_⟩
      · rw [carryTail_cons]
        exact validBytes_cons.mpr ⟨Nat.mod_lt _ (by omega), hv⟩
      · rw [carryTail_cons]
        exact hcb
      · rw [carryTail_cons]
        simp only [bytesToNat, List.length_cons, pow_succ, ← mul_assoc]
        set K := (carryTail bs (decide (256 ≤ b + c)).toNat).2 * 256 ^ bs.length
        omega

/-- The loop invariant: the emitted bytes are valid, the final carry stays
below 256, and output plus weighted final carry is the exact sum of the two
inputs and the incoming carry. -/
lemma addCore_spec (ls : List Nat) :
    ∀ (rs : List Nat) (c : Nat), validBytes ls → validBytes rs → c < 256 →
      validBytes (addCore ls rs c).1 ∧ (addCore ls rs c).2 < 256 ∧
      bytesToNat (addCore ls rs c).1
          + (addCore ls rs c).2 * 256 ^ max ls.length rs.length
        = bytesToNat ls + bytesToNat rs + c := by
  induction ls with
  | nil =>
      intro rs c _ hr hc
      have h := carryTail_spec rs c hr hc
      exact ⟨h.1, h.2.1, by simpa [bytesToNat] using h.2.2⟩
  | cons l ls ih =>
      intro rs c hl hr hc
      cases rs with
      | nil =>
          have h := carryTail_spec (l :: ls) c hl hc
          exact ⟨h.1, h.2.1, by simpa [bytesToNat] using h.2.2⟩
      | cons r rs =>
          obtain ⟨hlb, hls⟩ := validBytes_cons.mp hl
          obtain ⟨hrb, hrs⟩ := validBytes_cons.mp hr
          have hcnew : (decide (256 ≤ l + r)).toNat
              + (decide (256 ≤ (l + r) % 256 + c)).toNat < 256 := by
            by_cases h1 : 256 ≤ l + r <;> by_cases h2 : 256 ≤ (l + r) % 256 + c <;>
              simp [h1, h2]
          obtain ⟨hv, hcb, hval⟩ := ih rs
            ((decide (256 ≤ l + r)).toNat + (decide (256 ≤ (l + r) % 256 + c)).toNat)
            hls hrs hcnew
          have hstep := step2_eq l r c hlb hrb hc
          refine ⟨?_, ?_, ?_⟩
          · rw [addCore_cons_cons]
            exact validBytes_cons.mpr ⟨Nat.mod_lt _ (by omega), hv⟩
          · rw [addCore_cons_cons]
            exact hcb
          · rw [addCore_cons_cons]
            have hmax : max (ls.length + 1) (rs.length + 1)
                = max ls.length rs.length + 1 := by omega
            simp only [bytesToNat, List.length_cons, hmax, pow_succ, ← mul_assoc]
            set K := (addCore ls rs
              ((decide (256 ≤ l + r)).toNat
                + (decide (256 ≤ (l + r) % 256 + c)).toNat)).2
                  * 256 ^ max ls.length rs.length
            omega

/-- The loop is symmetric in its two byte sequences. -/
lemma addCore_comm (ls : List Nat) :
    ∀ (rs : List Nat) (c : Nat), addCore ls rs c = addCore rs ls c := by
  induction ls with
  | nil => intro rs c; cases rs <;> rfl
  | cons l ls ih =>
      intro rs c
      cases rs with
      | nil => rfl
      | cons r rs =>
          rw [addCore_cons_cons, addCore_cons_cons, Nat.add_comm r l, ih rs]

/-- Feeding a zero carry into the one-sided tail copies the bytes verbatim
and leaves no carry. -/
lemma carryTail_zero (bs : List Nat) (h : validBytes bs) :
    carryTail bs 0 = (bs, 0) := by
  induction bs with
  | nil => rfl
  | cons b bs ih =>
      obtain ⟨hb, hbs⟩ := validBytes_cons.mp h
      rw [carryTail_cons]
      have h1 : (b + 0) % 256 = b := by omega
      have h2 : (decide (256 ≤ b + 0)).toNat = 0 := by simp; omega
      rw [h1, h2, ih hbs]

/-! ## Claim theorems -/

/-- C1: when the final carry is not discarded (both operands carry the
non-discarding flag), the byte sequence produced by `add`, read as a
little-endian base-256 natural number, equals the sum of the operands' byte
sequences read the same way; in particular `3u8 + 255u8` gives a 2-byte
representation decoding to `258u16`, and `255u8 + 255u8` one decoding to
`510u16`. -/
theorem add_value_correct :
    (∀ a b : BigInt, validBytes a.backing → validBytes b.backing →
      a.discard_carry = false → b.discard_carry = false →
      bytesToNat (a.add b).backing = bytesToNat a.backing + bytesToNat b.backing)
    ∧ ((BigInt.from_value u8 3).add (BigInt.from_value u8 255)).backing.length = 2
    ∧ ((BigInt.from_value u8 3).add (BigInt.from_value u8 255)).to_value u16 = some 258
    ∧ ((BigInt.from_value u8 255).add (BigInt.from_value u8 255)).to_value u16 = some 510 := by
  refine ⟨?_, by decide, by decide, by decide⟩
  intro a b hva hvb hda hdb
  set res := addCore a.backing b.backing 0 with hres
  have hback : (a.add b).backing
      = if res.2 == 0 || a.discard_carry || b.discard_carry then res.1
        else res.1 ++ [res.2] := rfl
  obtain ⟨hv, hcb, hval⟩ := addCore_spec a.backing b.backing 0 hva hvb (by omega)
  rw [← hres] at hval
  have hlen : res.1.length = max a.backing.length b.backing.length :=
    addCore_length a.backing b.backing 0
  rw [hback, hda, hdb]
  by_cases h0 : res.2 = 0
  · rw [h0] at hval ⊢
    simpa using hval
  · have hc0 : (res.2 == 0) = false := by simp [h0]
    rw [hc0]
    simp only [Bool.or_false, Bool.false_or, Bool.or_self, Bool.false_eq_true,
      if_false]
    rw [bytesToNat_append_single, hlen]
    set K := res.2 * 256 ^ max a.backing.length b.backing.length
    omega

/-- Witness for C1: adds the raw-built representations of `[10]` and `[20]`
through the general theorem. -/
theorem add_value_correct_witness :
    validBytes (BigInt.from_backing [10]).backing
    ∧ validBytes (BigInt.from_backing [20]).backing
    ∧ bytesToNat ((BigInt.from_backing [10]).add (BigInt.from_backing [20])).backing
        = bytesToNat (BigInt.from_backing [10]).backing
            + bytesToNat (BigInt.from_backing [20]).backing :=
  ⟨by decide, by decide,
   add_value_correct.1 (BigInt.from_backing [10]) (BigInt.from_backing [20])
     (by decide) (by decide) rfl rfl⟩

/-- C7: addition of two raw-bytes-built representations of equal length is
commutative on the output byte sequences (indeed on the whole result). -/
theorem add_comm_raw :
    ∀ bs cs : List Nat, bs.length = cs.length →
      (BigInt.from_backing bs).add (BigInt.from_backing cs)
        = (BigInt.from_backing cs).add (BigInt.from_backing bs) := by
  intro bs cs _
  have h := addCore_comm bs cs 0
  simp only [BigInt.add, BigInt.from_backing, h]

/-- Witness for C7: commutes the sum of `[1, 2]` and `[3, 4]`. -/
theorem add_comm_raw_witness :
    ([1, 2] : List Nat).length = ([3, 4] : List Nat).length
    ∧ (BigInt.from_backing [1, 2]).add (BigInt.from_backing [3, 4])
        = (BigInt.from_backing [3, 4]).add (BigInt.from_backing [1, 2]) :=
  ⟨rfl, add_comm_raw [1, 2] [3, 4] rfl⟩

/-- C8: adding the raw-built representations of `[0]*16 ++ [255]` and
`[0]*16 ++ [2, 17, 1]` yields exactly the bytes `[0]*16 ++ [1, 18, 1]`: the
carry propagates one position past the shorter operand's end and the output
does not grow beyond the longer operand's length. -/
theorem one_sided_propagation :
    ((BigInt.from_backing (List.replicate 16 0 ++ [255])).add
        (BigInt.from_backing (List.replicate 16 0 ++ [2, 17, 1]))).backing
      = List.replicate 16 0 ++ [1, 18, 1] := by decide

/-- C9: the three forwarding overloads generated by `trait_impl!` produce
results identical to the canonical reference/reference addition. -/
theorem overload_equivalence :
    ∀ a b : BigInt,
      BigInt.add_owned_owned a b = BigInt.add a b
      ∧ BigInt.add_owned_ref a b = BigInt.add a b
      ∧ BigInt.add_ref_owned a b = BigInt.add a b :=
  fun _ _ => ⟨rfl, rfl, rfl⟩

/-- C10: an empty-backed representation is an identity element for addition
on byte sequences, in either operand order, with no carry byte appended. -/
theorem add_empty_identity :
    ∀ a e : BigInt, validBytes a.backing → e.backing = [] →
      (a.add e).backing = a.backing ∧ (e.add a).backing = a.backing := by
  intro a e hva he
  have h2 : addCore a.backing [] 0 = carryTail a.backing 0 := by
    cases a.backing <;> rfl
  have h1 : addCore a.backing e.backing 0 = (a.backing, 0) := by
    rw [he, h2, carryTail_zero a.backing hva]
  have h1' : addCore e.backing a.backing 0 = (a.backing, 0) := by
    rw [he]
    show carryTail a.backing 0 = _
    exact carryTail_zero a.backing hva
  constructor
  · show (if (addCore a.backing e.backing 0).2 == 0 || a.discard_carry || e.discard_carry
        then (addCore a.backing e.backing 0).1
        else (addCore a.backing e.backing 0).1 ++ [(addCore a.backing e.backing 0).2])
      = a.backing
    rw [h1]
    simp
  · show (if (addCore e.backing a.backing 0).2 == 0 || e.discard_carry || a.discard_carry
        then (addCore e.backing a.backing 0).1
        else (addCore e.backing a.backing 0).1 ++ [(addCore e.backing a.backing 0).2])
      = a.backing
    rw [h1']
    simp

/-- Witness for C10: `[7, 8]` plus the empty representation, in both orders. -/
theorem add_empty_identity_witness :
    validBytes (BigInt.from_backing [7, 8]).backing
    ∧ ((BigInt.from_backing [7, 8]).add (BigInt.from_backing [])).backing
        = (BigInt.from_backing [7, 8]).backing
    ∧ ((BigInt.from_backing []).add (BigInt.from_backing [7, 8])).backing
        = (BigInt.from_backing [7, 8]).backing :=
  ⟨by decide,
   (add_empty_identity (BigInt.from_backing [7, 8]) (BigInt.from_backing [])
     (by decide) rfl).1,
   (add_empty_identity (BigInt.from_backing [7, 8]) (BigInt.from_backing [])
     (by decide) rfl).2⟩

/-- C2 counterexample: the claim predicts that a nonzero final carry is
appended whenever at least one operand's policy allows growth.  Here the first
operand (`255u8`) has the growing policy, the final carry of the loop is
nonzero, yet the output is `[254]`: the carry was dropped because the second
operand (`i8`-sourced) discards. -/
theorem add_carry_growth_counterexample :
    (BigInt.from_value u8 255).discard_carry = false
    ∧ (addCore (BigInt.from_value u8 255).backing
        (BigInt.from_value i8 255).backing 0).2 ≠ 0
    ∧ ((BigInt.from_value u8 255).add (BigInt.from_value i8 255)).backing = [254] := by
  decide

/-- C2 amended: a nonzero final carry is appended (extending the output one
byte beyond `maxLen`) only when NEITHER operand's policy discards; if the
carry is zero or at least one operand discards, it is dropped and the output
length is exactly `maxLen`. -/
theorem add_carry_growth :
    ∀ a b : BigInt,
      ((addCore a.backing b.backing 0).2 ≠ 0 → a.discard_carry = false →
        b.discard_carry = false →
        (a.add b).backing
            = (addCore a.backing b.backing 0).1 ++ [(addCore a.backing b.backing 0).2]
          ∧ (a.add b).backing.length = max a.backing.length b.backing.length + 1)
      ∧ ((addCore a.backing b.backing 0).2 = 0 ∨ a.discard_carry = true
            ∨ b.discard_carry = true →
          (a.add b).backing = (addCore a.backing b.backing 0).1
          ∧ (a.add b).backing.length = max a.backing.length b.backing.length) := by
  intro a b
  set res := addCore a.backing b.backing 0 with hres
  have hback : (a.add b).backing
      = if res.2 == 0 || a.discard_carry || b.discard_carry then res.1
        else res.1 ++ [res.2] := rfl
  have hlen : res.1.length = max a.backing.length b.backing.length :=
    addCore_length a.backing b.backing 0
  constructor
  · intro h0 hda hdb
    have hc0 : (res.2 == 0) = false := by simp [h0]
    rw [hback, hda, hdb, hc0]
    simp only [Bool.or_false, Bool.false_or, Bool.or_self, Bool.false_eq_true,
      if_false]
    simp [hlen]
  · intro h
    have hcond : (res.2 == 0 || a.discard_carry || b.discard_carry) = true := by
      rcases h with h | h | h <;> simp [h]
    rw [hback, hcond]
    simp [hlen]

/-- Witness for C2 (amended): both branches at concrete operands — two
unsigned-sourced `255`s grow to 2 bytes, while `255u8 + 255i8` keeps length 1
because the second operand discards. -/
theorem add_carry_growth_witness :
    ((addCore (BigInt.from_value u8 255).backing
        (BigInt.from_value u8 255).backing 0).2 ≠ 0)
    ∧ ((BigInt.from_value u8 255).add (BigInt.from_value u8 255)).backing.length = 2
    ∧ ((BigInt.from_value i8 255).discard_carry = true)
    ∧ ((BigInt.from_value u8 255).add (BigInt.from_value i8 255)).backing.length = 1 :=
  ⟨by decide,
   ((add_carry_growth (BigInt.from_value u8 255) (BigInt.from_value u8 255)).1
     (by decide) rfl rfl).2,
   rfl,
   ((add_carry_growth (BigInt.from_value u8 255) (BigInt.from_value i8 255)).2
     (Or.inr (Or.inr rfl))).2⟩

/-- C3 counterexample: the claim says a raw-bytes-built representation has the
discarding policy and that an overflowing addition of such representations
drops its final carry.  In fact `from_backing` sets `discard_carry` to
`false`, and adding two raw-built `[255]`s appends the carry: the output is
`[254, 1]`, not `[254]`. -/
theorem from_backing_policy_counterexample :
    (BigInt.from_backing [255]).discard_carry = false
    ∧ ((BigInt.from_backing [255]).add (BigInt.from_backing [255])).backing
        = [254, 1] := by
  decide

/-- C3 amended: every representation built directly from a raw byte sequence
has the GROWING (non-discarding) policy — `discard_carry = false` — and the
output of addition is built this way, so a chain of additions reverts to the
growing policy after one addition even when both original operands were
signed/discarding: an overflowing addition whose operands are raw-bytes-built
representations (such as a previous sum) appends its final carry. -/
theorem from_backing_policy :
    (∀ bs : List Nat, (BigInt.from_backing bs).discard_carry = false)
    ∧ (∀ a b : BigInt, (a.add b).discard_carry = false)
    ∧ (((BigInt.from_value i8 255).add (BigInt.from_value i8 255)).add
        (BigInt.from_backing [2])).backing = [0, 1] :=
  ⟨fun _ => rfl, fun _ _ => rfl, by decide⟩

/-- C4: adding two representations built from unsigned-typed values that
overflow their shared width grows the output by one byte; for signed- or
float-typed sources the carry is discarded and the length stays at the width.
The trailing conjuncts record which supported types carry which policy
(`keep_carry()` is `false` for the unsigned types and `true` for the signed
and floating-point ones, and `from_value` copies it into `discard_carry`). -/
theorem from_value_overflow_growth :
    (∀ (T : AsBytesImpl) (u v : Nat),
      u < 256 ^ T.width → v < 256 ^ T.width → 256 ^ T.width ≤ u + v →
      ((BigInt.from_value T u).add (BigInt.from_value T v)).backing.length
        = if T.keep_carry then T.width else T.width + 1)
    ∧ u8.keep_carry = false ∧ u16.keep_carry = false ∧ u32.keep_carry = false
    ∧ u64.keep_carry = false ∧ u128.keep_carry = false ∧ usize.keep_carry = false
    ∧ i8.keep_carry = true ∧ i16.keep_carry = true ∧ i32.keep_carry = true
    ∧ i64.keep_carry = true ∧ i128.keep_carry = true ∧ isize.keep_carry = true
    ∧ f32.keep_carry = true ∧ f64.keep_carry = true := by
  refine ⟨?_, rfl, rfl, rfl, rfl, rfl, rfl, rfl, rfl, rfl, rfl, rfl, rfl, rfl, rfl⟩
  intro T u v hu hv hsum
  set res := addCore (natToBytes T.width u) (natToBytes T.width v) 0 with hres
  have hback : ((BigInt.from_value T u).add (BigInt.from_value T v)).backing
      = if res.2 == 0 || T.keep_carry || T.keep_carry then res.1
        else res.1 ++ [res.2] := rfl
  obtain ⟨hv1, hc256, hval⟩ := addCore_spec (natToBytes T.width u)
    (natToBytes T.width v) 0 (natToBytes_valid _ u) (natToBytes_valid _ v)
    (by omega)
  rw [← hres] at hval
  rw [bytesToNat_natToBytes, bytesToNat_natToBytes, Nat.mod_eq_of_lt hu,
    Nat.mod_eq_of_lt hv] at hval
  have hmax : max (natToBytes T.width u).length (natToBytes T.width v).length
      = T.width := by
    rw [natToBytes_length, natToBytes_length, Nat.max_self]
  rw [hmax] at hval
  have hlen1 : res.1.length = T.width := by
    rw [hres, addCore_length, hmax]
  have hNlt : bytesToNat res.1 < 256 ^ T.width := by
    have hvres : validBytes res.1 := by rw [hres]; exact hv1
    have h := bytesToNat_lt hvres
    rwa [hlen1] at h
  have hcarry : res.2 = 1 := by
    rcases hc : res.2 with _ | n
    · exfalso
      rw [hc] at hval
      simp only [Nat.zero_mul, Nat.add_zero] at hval
      omega
    · rcases n with _ | m
      · rfl
      · exfalso
        rw [hc] at hval
        have hexp : (m + 1 + 1) * 256 ^ T.width
            = m * 256 ^ T.width + 2 * 256 ^ T.width := by ring
        rw [hexp] at hval
        have h2M : u + v < 2 * 256 ^ T.width := by omega
        omega
  cases hk : T.keep_carry with
  | false =>
      have hcond : (res.2 == 0 || T.keep_carry || T.keep_carry) = false := by
        rw [hcarry, hk]
        rfl
      rw [hback, hcond]
      simp [hlen1]
  | true =>
      have hcond : (res.2 == 0 || T.keep_carry || T.keep_carry) = true := by
        rw [hk]
        simp
      rw [hback, hcond]
      simp [hlen1]

/-- Witness for C4: `255u8 + 255u8` has 2 output bytes, `255i8 + 255i8`
(the bit pattern of `-1i8`) has 1. -/
theorem from_value_overflow_growth_witness :
    (255 : Nat) < 256 ^ u8.width
    ∧ 256 ^ u8.width ≤ 255 + 255
    ∧ ((BigInt.from_value u8 255).add (BigInt.from_value u8 255)).backing.length = 2
    ∧ ((BigInt.from_value i8 255).add (BigInt.from_value i8 255)).backing.length = 1 :=
  ⟨by decide, by decide,
   from_value_overflow_growth.1 u8 255 255 (by decide) (by decide) (by decide),
   from_value_overflow_growth.1 i8 255 255 (by decide) (by decide) (by decide)⟩

/-- C5: for every supported type (modelled by its byte width, with values as
bit patterns) and every representable value, decoding the canonical encoding
returns the value: `from_bytes (as_bytes v) = some v`.  The trailing conjuncts
record the widths of the supported types (`usize`/`isize` on a 64-bit host). -/
theorem roundtrip :
    (∀ (T : AsBytesImpl) (v : Nat), v < 256 ^ T.width →
      T.from_bytes (T.as_bytes v) = some v)
    ∧ u8.width = 1 ∧ u16.width = 2 ∧ u32.width = 4 ∧ u64.width = 8
    ∧ u128.width = 16 ∧ usize.width = 8 ∧ i8.width = 1 ∧ i16.width = 2
    ∧ i32.width = 4 ∧ i64.width = 8 ∧ i128.width = 16 ∧ isize.width = 8
    ∧ f32.width = 4 ∧ f64.width = 8 := by
  refine ⟨?_, rfl, rfl, rfl, rfl, rfl, rfl, rfl, rfl, rfl, rfl, rfl, rfl, rfl, rfl⟩
  intro T v hv
  simp [AsBytesImpl.from_bytes, AsBytesImpl.as_bytes, natToBytes_length,
    bytesToNat_natToBytes, Nat.mod_eq_of_lt hv]

/-- Witness for C5: round-trips the value 701 through the 2-byte unsigned
type, recovering the doctest `BigInt::from_value(701u16)`. -/
theorem roundtrip_witness :
    (701 : Nat) < 256 ^ u16.width
    ∧ u16.from_bytes (u16.as_bytes 701) = some 701 :=
  ⟨by decide, roundtrip.1 u16 701 (by decide)⟩

/-- C6: decoding returns `none` exactly when the byte length differs from the
type's fixed width — a strict length check, never a panic — both at the
`from_bytes` level and through `BigInt::to_value`; in particular the 1-byte
representation `[5]` cannot be converted to the 2-byte type even though the
value 5 would fit. -/
theorem from_bytes_length_check :
    (∀ (T : AsBytesImpl) (bs : List Nat),
      T.from_bytes bs = none ↔ bs.length ≠ T.width)
    ∧ (∀ (T : AsBytesImpl) (a : BigInt),
      a.to_value T = none ↔ a.backing.length ≠ T.width)
    ∧ (BigInt.from_backing [5]).to_value u16 = none := by
  have h1 : ∀ (T : AsBytesImpl) (bs : List Nat),
      T.from_bytes bs = none ↔ bs.length ≠ T.width := by
    intro T bs
    by_cases h : bs.length = T.width <;> simp [AsBytesImpl.from_bytes, h]
  exact ⟨h1, fun T a => h1 T a.backing, by decide⟩

/-- Witness for C6: a 3-byte sequence does not decode as the 2-byte type. -/
theorem from_bytes_length_check_witness :
    u16.from_bytes [1, 2, 3] = none :=
  (from_bytes_length_check.1 u16 [1, 2, 3]).mpr (by decide)

end BigIntRs
